import Mathlib

/-!
Shallow embedding of `src/pbt_tutorial/basic_functions.py` and proofs of the
specified properties.  Strings are modelled as `List Char`, Python dicts as
association lists with unique keys, run-length token streams as lists of a
`Token` sum type, and the numpy array in `softmax` as a `List ℝ`.
-/

namespace PbtTutorial

/-! ### `count_vowels` -/

/-- The vowel set built at the top of `count_vowels`:
`set("aeiouAEIOU")`, extended with `"yY"` when `include_y` is true. -/
def vowelSet (include_y : Bool) : List Char :=
  "aeiouAEIOU".toList ++ (if include_y then "yY".toList else [])

/-- `count_vowels(x, include_y)`: counts characters of `x` in the vowel set. -/
def count_vowels (x : List Char) (include_y : Bool) : Nat :=
  x.countP (fun c => (vowelSet include_y).contains c)

/-- Python string repetition `s * n`. -/
def strMul (s : List Char) (n : Nat) : List Char :=
  (List.replicate n s).flatten

/-! ### `leftpad` -/

/-- `leftpad(string, width, fillchar)`: `margin = max(width - len(string), 0)`
(Nat subtraction is already truncated) and `margin * fillchar + string`.
The preconditions (`width` a non-negative integer, `fillchar` a single
character) are reflected in the types `Nat` and `Char`. -/
def leftpad (string : List Char) (width : Nat) (fillchar : Char) : List Char :=
  List.replicate (width - string.length) fillchar ++ string

/-! ### `safe_name` -/

/-- A Python object as seen by `safe_name`: it may or may not expose a
`__qualname__` attribute, a `__name__` attribute, and a `__repr__`. -/
structure PyObj where
  qualname : Option String
  name : Option String
  repr : Option String

/-- `safe_name(obj, repr_allowed)`: try `__qualname__`, then `__name__`,
then (if allowed) `repr(obj)`, else the sentinel. -/
def safe_name (obj : PyObj) (repr_allowed : Bool) : String :=
  match obj.qualname with
  | some q => q
  | none =>
    match obj.name with
    | some n => n
    | none =>
      match repr_allowed, obj.repr with
      | true, some r => r
      | _, _ => "<unknown>"

/-! ### `merge_max_mappings`

A Python `dict` is modelled as an association list with unique keys.
`merged[key] = value` overwrites in place when the key is present and
appends otherwise; `dict(dict1)` (the copy) is implicit in the functional
model.  Values only need a total order (`value > merged[key]`). -/

/-- `key in d` / `d[key]` as one operation: first (only) binding of `key`. -/
def dictLookup {α : Type} : List (String × α) → String → Option α
  | [], _ => none
  | (k, v) :: rest, key => if k = key then some v else dictLookup rest key

/-- `d[key] = val`: overwrite in place if present, else append at the end
(Python dicts keep insertion order). -/
def dictSet {α : Type} : List (String × α) → String → α → List (String × α)
  | [], key, val => [(key, val)]
  | (k, v) :: rest, key, val =>
    if k = key then (k, val) :: rest else (k, v) :: dictSet rest key val

/-- One iteration of the loop body:
`if key not in merged or value > merged[key]: merged[key] = value`. -/
def mergeStep {α : Type} [LinearOrder α] (merged : List (String × α))
    (kv : String × α) : List (String × α) :=
  match dictLookup merged kv.1 with
  | none => dictSet merged kv.1 kv.2
  | some cur => if cur < kv.2 then dictSet merged kv.1 kv.2 else merged

/-- `merge_max_mappings(dict1, dict2)`: copy `dict1`, then fold the loop
body over the items of `dict2`. -/
def merge_max_mappings {α : Type} [LinearOrder α]
    (dict1 dict2 : List (String × α)) : List (String × α) :=
  dict2.foldl mergeStep dict1

/-- How the merge combines an (optional) current value with an incoming one:
keep the current value unless the incoming one is strictly greater. -/
def combineVal {α : Type} [LinearOrder α] (o : Option α) (v : α) : α :=
  match o with
  | none => v
  | some cur => if cur < v then v else cur

/-! ### `run_length_encoder` / `run_length_decoder`

The token stream `List[Union[str, int]]` is modelled as a list of `Token`s.
The encoder walks the string keeping the current run (this is what
`itertools.groupby` produces: maximal runs of equal consecutive
characters).  The decoder follows the Python loop exactly: each token sees
the token that precedes it in the stream, and the token preceding the first
one is `in_list[-1]`, i.e. the *last* element (Python negative indexing).
`str * k` is empty for `k ≤ 0`, hence `Int.toNat`; concatenating an `int`
onto the output string raises `TypeError`, modelled as `Except.error ()`. -/

inductive Token where
  | chr (c : Char)
  | cnt (n : Int)
deriving DecidableEq

/-- A finished run of `n` copies of `c`: a single character for a run of
length 1, else the character twice followed by the count. -/
def encodeRun (c : Char) (n : Nat) : List Token :=
  if n = 1 then [Token.chr c] else [Token.chr c, Token.chr c, Token.cnt (n : Int)]

/-- Scan the rest of the string holding the current run `(c, n)`. -/
def encodeAux : Char → Nat → List Char → List Token
  | c, n, [] => encodeRun c n
  | c, n, x :: xs =>
    if x = c then encodeAux c (n + 1) xs else encodeRun c n ++ encodeAux x 1 xs

/-- `run_length_encoder(in_string)`. -/
def run_length_encoder : List Char → List Token
  | [] => []
  | c :: rest => encodeAux c 1 rest

/-- The decoder loop, with `prev` the token preceding the current position
in the stream (`in_list[n-1]`). -/
def decodeAux (prev : Token) : List Token → Except Unit (List Char)
  | [] => Except.ok []
  | Token.chr c :: rest =>
    match decodeAux (Token.chr c) rest with
    | Except.ok s => Except.ok (c :: s)
    | Except.error e => Except.error e
  | Token.cnt m :: rest =>
    match prev with
    | Token.chr c =>
      match decodeAux (Token.cnt m) rest with
      | Except.ok s => Except.ok (List.replicate (m - 2).toNat c ++ s)
      | Except.error e => Except.error e
    | Token.cnt _ => Except.error ()

/-- `run_length_decoder(in_list)`: the first iteration reads
`in_list[0 - 1] = in_list[-1]`, the last element of the list (the default
passed to `getLastD` is irrelevant: it is never inspected on `[]`). -/
def run_length_decoder (l : List Token) : Except Unit (List Char) :=
  decodeAux (l.getLastD (Token.chr 'a')) l

/-! ### `softmax`

The 1D numpy array of floats is idealised as a `List ℝ` and `np.exp` as
`Real.exp`; the source is `x = x - x.max()` followed by
`np.exp(x) / np.exp(x).sum()` (elementwise). -/

/-- `x.max()` for a (non-empty) 1D array; the empty case (where numpy
raises) is given an arbitrary value and never used by the theorems. -/
def listMax : List ℝ → ℝ
  | [] => 0
  | v :: rest => rest.foldl max v

/-- `softmax(x)`. -/
noncomputable def softmax (x : List ℝ) : List ℝ :=
  let exps := (x.map (fun v => v - listMax x)).map Real.exp
  exps.map (fun e => e / exps.sum)

/-! ### Theorems: `count_vowels` and `leftpad` -/

/-- C7: `count_vowels(s*n, inc_y) == n * count_vowels(s, inc_y)` for every
string `s`, every `n ≥ 0` and every boolean `inc_y`. -/
theorem count_vowels_strMul (s : List Char) (n : Nat) (inc_y : Bool) :
    count_vowels (strMul s n) inc_y = n * count_vowels s inc_y := by
  induction n with
  | zero => simp [strMul, count_vowels]
  | succ k ih =>
    have : strMul s (k + 1) = s ++ strMul s k := by
      simp [strMul, List.replicate_succ]
    rw [this]
    unfold count_vowels at *
    rw [List.countP_append, ih]
    ring

/-- C3: if `len(s) >= w` then `leftpad s w f = s`; otherwise it is
`(w - len(s))` copies of `f` followed by `s`. -/
theorem leftpad_spec (s : List Char) (w : Nat) (f : Char) :
    leftpad s w f =
      if w ≤ s.length then s else List.replicate (w - s.length) f ++ s := by
  unfold leftpad
  by_cases h : w ≤ s.length
  · simp [h, Nat.sub_eq_zero_of_le h]
  · simp [h]

/-! ### Theorems: `safe_name` -/

/-- C5: `safe_name` always returns a string (it is total by construction),
and returns the sentinel `"<unknown>"` whenever no qualified name, no simple
name, and no permitted debug representation is available. -/
theorem safe_name_fallback (obj : PyObj) (repr_allowed : Bool)
    (hq : obj.qualname = none) (hn : obj.name = none)
    (hr : repr_allowed = false ∨ obj.repr = none) :
    safe_name obj repr_allowed = "<unknown>" := by
  unfold safe_name
  rw [hq, hn]
  rcases hr with h | h
  · subst h
    cases obj.repr <;> rfl
  · rw [h]
    cases repr_allowed <;> rfl

/-- Non-vacuity witness for `safe_name_fallback` at a concrete object. -/
theorem safe_name_fallback_witness :
    (PyObj.mk none none none).qualname = none ∧
    (PyObj.mk none none none).name = none ∧
    (true = false ∨ (PyObj.mk none none none).repr = none) ∧
    safe_name (PyObj.mk none none none) true = "<unknown>" :=
  ⟨rfl, rfl, Or.inr rfl,
    safe_name_fallback (PyObj.mk none none none) true rfl rfl (Or.inr rfl)⟩

/-- C10 counterexample: an object with no `__qualname__`/`__name__` whose
`repr` is the string `"<unknown>"` makes `safe_name(obj, True)` return the
sentinel even though a debug representation is available. -/
theorem safe_name_sentinel_despite_repr :
    safe_name (PyObj.mk none none (some "<unknown>")) true = "<unknown>" := rfl

/-- C10 (amended): with `repr_allowed = True` and a debug representation
available, `safe_name` never takes the literal fallback branch: it returns
the qualified name, else the simple name, else the repr string. -/
theorem safe_name_repr_allowed_uses_attrs (obj : PyObj) (r : String)
    (hr : obj.repr = some r) :
    safe_name obj true = obj.qualname.getD (obj.name.getD r) := by
  unfold safe_name
  rw [hr]
  cases obj.qualname <;> cases obj.name <;> rfl

/-- Non-vacuity witness for `safe_name_repr_allowed_uses_attrs`. -/
theorem safe_name_repr_allowed_uses_attrs_witness :
    (PyObj.mk none none (some "obj-repr")).repr = some "obj-repr" ∧
    safe_name (PyObj.mk none none (some "obj-repr")) true = "obj-repr" :=
  ⟨rfl, safe_name_repr_allowed_uses_attrs (PyObj.mk none none (some "obj-repr"))
    "obj-repr" rfl⟩

/-! ### Theorems: `merge_max_mappings` -/

theorem dictLookup_dictSet_self {α : Type} (d : List (String × α))
    (k : String) (v : α) : dictLookup (dictSet d k v) k = some v := by
  induction d with
  | nil => simp [dictSet, dictLookup]
  | cons kv rest ih =>
    obtain ⟨k', v'⟩ := kv
    by_cases h : k' = k <;> simp [dictSet, dictLookup, h, ih]

theorem dictLookup_dictSet_ne {α : Type} (d : List (String × α))
    (k k' : String) (v : α) (hne : k' ≠ k) :
    dictLookup (dictSet d k v) k' = dictLookup d k' := by
  induction d with
  | nil => simp [dictSet, dictLookup, Ne.symm hne]
  | cons kv rest ih =>
    obtain ⟨k₀, v₀⟩ := kv
    by_cases h : k₀ = k
    · subst h
      simp [dictSet, dictLookup, Ne.symm hne]
    · simp [dictSet, dictLookup, h, ih]

theorem dictLookup_isSome_iff {α : Type} (l : List (String × α)) (k : String) :
    (dictLookup l k).isSome ↔ k ∈ l.map Prod.fst := by
  induction l with
  | nil => simp [dictLookup]
  | cons kv rest ih =>
    obtain ⟨k', v⟩ := kv
    by_cases h : k' = k
    · subst h
      simp [dictLookup]
    · simp [dictLookup, h, Ne.symm h, ih]

theorem dictLookup_eq_none_of_not_mem {α : Type} (l : List (String × α))
    (k : String) (h : k ∉ l.map Prod.fst) : dictLookup l k = none := by
  have := (dictLookup_isSome_iff l k).not.mpr h
  cases hl : dictLookup l k with
  | none => rfl
  | some v => exact absurd (by simp [hl]) this

theorem dictLookup_of_mem_nodup {α : Type} (l : List (String × α))
    (k : String) (v : α) (hnd : (l.map Prod.fst).Nodup)
    (hmem : (k, v) ∈ l) : dictLookup l k = some v := by
  induction l with
  | nil => simp at hmem
  | cons kv rest ih =>
    obtain ⟨k', v'⟩ := kv
    simp only [List.map_cons, List.nodup_cons] at hnd
    rcases List.mem_cons.mp hmem with h | h
    · obtain ⟨rfl, rfl⟩ := Prod.mk.injEq .. ▸ h
      simp [dictLookup]
    · have hk : k' ≠ k := by
        rintro rfl
        exact hnd.1 (List.mem_map.mpr ⟨(k', v), h, rfl⟩)
      simp [dictLookup, hk, ih hnd.2 h]

theorem dictLookup_mergeStep_self {α : Type} [LinearOrder α]
    (m : List (String × α)) (k : String) (v : α) :
    dictLookup (mergeStep m (k, v)) k = some (combineVal (dictLookup m k) v) := by
  unfold mergeStep combineVal
  cases h : dictLookup m k with
  | none => simpa using dictLookup_dictSet_self m k v
  | some cur =>
    by_cases hlt : cur < v
    · simpa [hlt] using dictLookup_dictSet_self m k v
    · simp [hlt, h]

theorem dictLookup_mergeStep_ne {α : Type} [LinearOrder α]
    (m : List (String × α)) (k k' : String) (v : α) (hne : k' ≠ k) :
    dictLookup (mergeStep m (k, v)) k' = dictLookup m k' := by
  unfold mergeStep
  cases dictLookup m k with
  | none => simpa using dictLookup_dictSet_ne m k k' v hne
  | some cur =>
    by_cases hlt : cur < v
    · simpa [hlt] using dictLookup_dictSet_ne m k k' v hne
    · simp [hlt]

theorem dictLookup_foldl_not_mem {α : Type} [LinearOrder α]
    (l : List (String × α)) (k : String) (h : k ∉ l.map Prod.fst) :
    ∀ init, dictLookup (l.foldl mergeStep init) k = dictLookup init k := by
  induction l with
  | nil => intro init; rfl
  | cons kv rest ih =>
    intro init
    obtain ⟨k', v'⟩ := kv
    simp only [List.map_cons, List.mem_cons] at h
    push_neg at h
    rw [List.foldl_cons, ih h.2, dictLookup_mergeStep_ne _ _ _ _ h.1]

/-- Pointwise behaviour of the merge loop over the items of `d2`. -/
theorem merge_lookup_aux {α : Type} [LinearOrder α] (d2 : List (String × α))
    (hnd : (d2.map Prod.fst).Nodup) (init : List (String × α)) (k : String) :
    dictLookup (d2.foldl mergeStep init) k =
      match dictLookup d2 k with
      | none => dictLookup init k
      | some v2 => some (combineVal (dictLookup init k) v2) := by
  induction d2 generalizing init with
  | nil => rfl
  | cons kv rest ih =>
    obtain ⟨k', v'⟩ := kv
    simp only [List.map_cons, List.nodup_cons] at hnd
    by_cases h : k' = k
    · subst h
      have hrest : k' ∉ rest.map Prod.fst := hnd.1
      rw [List.foldl_cons,
        dictLookup_foldl_not_mem rest k' hrest (mergeStep init (k', v')),
        dictLookup_mergeStep_self]
      simp [dictLookup]
    · rw [List.foldl_cons, ih hnd.2 (mergeStep init (k', v')),
        dictLookup_mergeStep_ne _ _ _ _ (fun hk => h hk.symm)]
      simp [dictLookup, h]

/-- C2: the merge's key set is the union of the inputs' key sets; a key in
only one input keeps that input's value; a key in both gets the larger
value. -/
theorem merge_max_mappings_spec {α : Type} [LinearOrder α]
    (d1 d2 : List (String × α)) (hnd : (d2.map Prod.fst).Nodup) :
    (∀ k, k ∈ (merge_max_mappings d1 d2).map Prod.fst ↔
        k ∈ d1.map Prod.fst ∨ k ∈ d2.map Prod.fst) ∧
    (∀ k v, dictLookup d1 k = some v → dictLookup d2 k = none →
        dictLookup (merge_max_mappings d1 d2) k = some v) ∧
    (∀ k v, dictLookup d1 k = none → dictLookup d2 k = some v →
        dictLookup (merge_max_mappings d1 d2) k = some v) ∧
    (∀ k v1 v2, dictLookup d1 k = some v1 → dictLookup d2 k = some v2 →
        dictLookup (merge_max_mappings d1 d2) k = some (max v1 v2)) := by
  refine ⟨fun k => ?_, fun k v h1 h2 => ?_, fun k v h1 h2 => ?_,
    fun k v1 v2 h1 h2 => ?_⟩
  · rw [← dictLookup_isSome_iff, ← dictLookup_isSome_iff, ← dictLookup_isSome_iff,
      merge_max_mappings, merge_lookup_aux d2 hnd d1 k]
    cases dictLookup d2 k <;> cases dictLookup d1 k <;> simp
  · rw [merge_max_mappings, merge_lookup_aux d2 hnd d1 k, h2, h1]
  · rw [merge_max_mappings, merge_lookup_aux d2 hnd d1 k, h2, h1]
    rfl
  · rw [merge_max_mappings, merge_lookup_aux d2 hnd d1 k, h2, h1]
    unfold combineVal
    rcases lt_or_le v1 v2 with h | h
    · simp [h, max_eq_right h.le]
    · simp [not_lt.mpr h, max_eq_left h]

/-- Non-vacuity witness for `merge_max_mappings_spec` on the spec's own
example `merge_max_mappings({"a":1,"b":2}, {"b":100,"c":-1})`. -/
theorem merge_max_mappings_spec_witness :
    (([("b", (100 : ℤ)), ("c", -1)].map Prod.fst).Nodup) ∧
    dictLookup (merge_max_mappings [("a", (1 : ℤ)), ("b", 2)]
      [("b", (100 : ℤ)), ("c", -1)]) "b" = some 100 := by
  refine ⟨by decide, ?_⟩
  have h := (merge_max_mappings_spec [("a", (1 : ℤ)), ("b", 2)]
    [("b", (100 : ℤ)), ("c", -1)] (by decide)).2.2.2 "b" 2 100 (by decide) (by decide)
  simpa using h

theorem le_combineVal {α : Type} [LinearOrder α] (o : Option α) (v : α) :
    v ≤ combineVal o v := by
  unfold combineVal
  cases o with
  | none => exact le_rfl
  | some cur =>
    by_cases h : cur < v
    · simp [h]
    · simp [h, not_lt.mp h]

theorem foldl_mergeStep_no_change {α : Type} [LinearOrder α]
    (l : List (String × α)) (m : List (String × α))
    (h : ∀ kv ∈ l, ∃ v, dictLookup m kv.1 = some v ∧ kv.2 ≤ v) :
    l.foldl mergeStep m = m := by
  induction l with
  | nil => rfl
  | cons kv rest ih =>
    obtain ⟨k, v2⟩ := kv
    obtain ⟨v, hv, hle⟩ := h (k, v2) (List.mem_cons_self _ _)
    have hstep : mergeStep m (k, v2) = m := by
      unfold mergeStep
      rw [hv]
      simp [not_lt.mpr hle]
    rw [List.foldl_cons, hstep]
    exact ih (fun kv hkv => h kv (List.mem_cons_of_mem _ hkv))

/-- C6: re-merging the merged result with the second input is a fixed
point: `merge(merge(d1, d2), d2) = merge(d1, d2)`. -/
theorem merge_max_mappings_fixed_point {α : Type} [LinearOrder α]
    (d1 d2 : List (String × α)) (hnd : (d2.map Prod.fst).Nodup) :
    merge_max_mappings (merge_max_mappings d1 d2) d2 =
      merge_max_mappings d1 d2 := by
  apply foldl_mergeStep_no_change
  rintro ⟨k, v2⟩ hkv
  have hl2 : dictLookup d2 k = some v2 := dictLookup_of_mem_nodup d2 k v2 hnd hkv
  refine ⟨combineVal (dictLookup d1 k) v2, ?_, le_combineVal _ _⟩
  rw [merge_max_mappings, merge_lookup_aux d2 hnd d1 k, hl2]

/-- Non-vacuity witness for `merge_max_mappings_fixed_point`. -/
theorem merge_max_mappings_fixed_point_witness :
    (([("b", (100 : ℤ)), ("c", -1)].map Prod.fst).Nodup) ∧
    merge_max_mappings (merge_max_mappings [("a", (1 : ℤ)), ("b", 2)]
        [("b", (100 : ℤ)), ("c", -1)]) [("b", (100 : ℤ)), ("c", -1)] =
      merge_max_mappings [("a", (1 : ℤ)), ("b", 2)] [("b", (100 : ℤ)), ("c", -1)] :=
  ⟨by decide, merge_max_mappings_fixed_point [("a", (1 : ℤ)), ("b", 2)]
    [("b", (100 : ℤ)), ("c", -1)] (by decide)⟩

/-- C9: when a key is in both inputs and `d2`'s value is not strictly
greater (in particular when the values are equal), the merge keeps `d1`'s
value: the overwrite test `value > merged[key]` is strict. -/
theorem merge_max_mappings_keeps_first {α : Type} [LinearOrder α]
    (d1 d2 : List (String × α)) (hnd : (d2.map Prod.fst).Nodup) (k : String)
    (v1 v2 : α) (h1 : dictLookup d1 k = some v1) (h2 : dictLookup d2 k = some v2)
    (hle : v2 ≤ v1) :
    dictLookup (merge_max_mappings d1 d2) k = some v1 := by
  rw [merge_max_mappings, merge_lookup_aux d2 hnd d1 k, h2, h1]
  unfold combineVal
  simp [not_lt.mpr hle]

/-- Non-vacuity witness for `merge_max_mappings_keeps_first`: equal values
on the shared key, the merge keeps `d1`'s copy. -/
theorem merge_max_mappings_keeps_first_witness :
    (([("a", (5 : ℤ))].map Prod.fst).Nodup) ∧
    dictLookup [("a", (5 : ℤ))] "a" = some 5 ∧ (5 : ℤ) ≤ 5 ∧
    dictLookup (merge_max_mappings [("a", (5 : ℤ))] [("a", (5 : ℤ))]) "a" = some 5 :=
  ⟨by decide, by decide, le_refl 5,
    merge_max_mappings_keeps_first [("a", (5 : ℤ))] [("a", (5 : ℤ))] (by decide)
      "a" 5 5 (by decide) (by decide) (le_refl 5)⟩

/-! ### Theorems: run-length encoding -/

theorem decodeAux_append (a : List Token) : ∀ (prev : Token) (b : List Token),
    decodeAux prev (a ++ b) =
      match decodeAux prev a with
      | Except.error e => Except.error e
      | Except.ok s =>
        match decodeAux (a.getLastD prev) b with
        | Except.error e => Except.error e
        | Except.ok t => Except.ok (s ++ t) := by
  induction a with
  | nil =>
    intro prev b
    simp only [List.nil_append, List.getLastD_nil]
    cases h : decodeAux prev b <;> simp [decodeAux, h]
  | cons t a' ih =>
    intro prev b
    cases t with
    | chr c =>
      rw [List.cons_append]
      show (match decodeAux (Token.chr c) (a' ++ b) with
        | Except.ok s => Except.ok (c :: s)
        | Except.error e => Except.error e) = _
      rw [ih (Token.chr c) b, List.getLastD_cons]
      cases h : decodeAux (Token.chr c) a' with
      | error e => simp only [decodeAux, h]
      | ok s =>
        cases h2 : decodeAux (a'.getLastD (Token.chr c)) b with
        | error e => simp only [decodeAux, h, h2]
        | ok t => simp only [decodeAux, h, h2, List.cons_append]
    | cnt m =>
      cases prev with
      | cnt m' => simp [decodeAux]
      | chr c =>
        rw [List.cons_append]
        show (match decodeAux (Token.cnt m) (a' ++ b) with
          | Except.ok s =>
            Except.ok (List.replicate (m - 2).toNat c ++ s)
          | Except.error e => Except.error e) = _
        rw [ih (Token.cnt m) b, List.getLastD_cons]
        cases h : decodeAux (Token.cnt m) a' with
        | error e => simp only [decodeAux, h]
        | ok s =>
          cases h2 : decodeAux (a'.getLastD (Token.cnt m)) b with
          | error e => simp only [decodeAux, h, h2]
          | ok t => simp only [decodeAux, h, h2, List.append_assoc]

theorem decodeAux_encodeRun (prev : Token) (c : Char) (n : Nat) (h : 1 ≤ n) :
    decodeAux prev (encodeRun c n) = Except.ok (List.replicate n c) := by
  unfold encodeRun
  by_cases h1 : n = 1
  · subst h1
    rfl
  · have h2 : 2 ≤ n := by omega
    have ht : ((n : Int) - 2).toNat = n - 2 := by omega
    have hrep : c :: c :: List.replicate (n - 2) c = List.replicate n c := by
      have hn : n = (n - 2) + 1 + 1 := by omega
      rw [hn]
      simp [List.replicate_succ]
    simp only [h1, if_false, decodeAux, ht, List.append_nil]
    rw [← hrep]

theorem decodeAux_encodeAux (l : List Char) : ∀ (c : Char) (n : Nat), 1 ≤ n →
    ∀ prev, decodeAux prev (encodeAux c n l) =
      Except.ok (List.replicate n c ++ l) := by
  induction l with
  | nil =>
    intro c n hn prev
    simpa [encodeAux] using decodeAux_encodeRun prev c n hn
  | cons x xs ih =>
    intro c n hn prev
    by_cases hx : x = c
    · subst hx
      rw [encodeAux, if_pos rfl, ih x (n + 1) (by omega) prev,
        List.replicate_succ']
      simp
    · rw [encodeAux, if_neg hx, decodeAux_append, decodeAux_encodeRun prev c n hn,
        ih x 1 le_rfl ((encodeRun c n).getLastD prev)]
      simp

/-- C1: the round-trip law `run_length_decoder(run_length_encoder(s)) == s`
holds for every string, including the empty string (the decoder returning
`Except.ok` means no `TypeError` is raised). -/
theorem run_length_roundtrip (s : List Char) :
    run_length_decoder (run_length_encoder s) = Except.ok s := by
  cases s with
  | nil => rfl
  | cons c rest =>
    show run_length_decoder (encodeAux c 1 rest) = _
    unfold run_length_decoder
    rw [decodeAux_encodeAux rest c 1 le_rfl]
    simp

/-- C4 counterexample: on the malformed stream `[5, 'a']` (a count token
first), the decoder does not fail: Python's `in_list[-1]` wraps around to
the last element, and the call silently returns the string `"aaaa"`. -/
theorem run_length_decoder_cnt_first_silent :
    run_length_decoder [Token.cnt 5, Token.chr 'a'] =
      Except.ok ['a', 'a', 'a', 'a'] := rfl

/-- C4 (amended): a stream whose first element is a count token does not
reliably fail: the wrapped-around lookup `in_list[-1]` makes the outcome
depend on the rest of the stream.  The singleton malformed stream `[m]`
does raise `TypeError` (`in_list[-1]` is the int itself), but the
two-element stream `[m, c]` silently returns `c` repeated `(m-2)+1` times
instead of failing. -/
theorem run_length_decoder_malformed_first (m : Int) (c : Char) :
    run_length_decoder [Token.cnt m] = Except.error () ∧
    run_length_decoder [Token.cnt m, Token.chr c] =
      Except.ok (List.replicate (m - 2).toNat c ++ [c]) :=
  ⟨rfl, rfl⟩

/-! ### Theorems: `softmax` -/

theorem sum_map_div (l : List ℝ) (S : ℝ) :
    (l.map (fun e => e / S)).sum = l.sum / S := by
  induction l with
  | nil => simp
  | cons a l ih => simp [ih, add_div]

/-- C8: for every non-empty array, every entry of `softmax` lies in
`[0, 1]` and the entries sum to 1 within tolerance `1e-9` (over the real
idealisation the sum is exactly 1). -/
theorem softmax_spec (x : List ℝ) (hx : x ≠ []) :
    (∀ v ∈ softmax x, 0 ≤ v ∧ v ≤ 1) ∧ |(softmax x).sum - 1| ≤ 1e-9 := by
  classical
  set exps := (x.map (fun v => v - listMax x)).map Real.exp with hexps
  have hne : exps ≠ [] := by
    simp [hexps, hx]
  have hpos : ∀ e ∈ exps, 0 < e := by
    intro e he
    rw [hexps] at he
    obtain ⟨v, _, rfl⟩ := List.mem_map.mp he
    exact Real.exp_pos v
  have hSpos : 0 < exps.sum := List.sum_pos exps hpos hne
  have hsm : softmax x = exps.map (fun e => e / exps.sum) := rfl
  constructor
  · intro v hv
    rw [hsm] at hv
    obtain ⟨e, he, rfl⟩ := List.mem_map.mp hv
    refine ⟨div_nonneg (hpos e he).le hSpos.le, ?_⟩
    rw [div_le_one hSpos]
    exact List.single_le_sum (fun a ha => (hpos a ha).le) e he
  · rw [hsm, sum_map_div, div_self (ne_of_gt hSpos)]
    norm_num

/-- Non-vacuity witness for `softmax_spec` at the concrete array `[0]`. -/
theorem softmax_spec_witness :
    ([(0 : ℝ)] ≠ []) ∧
    ((∀ v ∈ softmax [(0 : ℝ)], 0 ≤ v ∧ v ≤ 1) ∧
      |(softmax [(0 : ℝ)]).sum - 1| ≤ 1e-9) :=
  ⟨by simp, softmax_spec [(0 : ℝ)] (by simp)⟩

end PbtTutorial
